import Mathlib

/-!
# Verification of the cook-with-rust semantic reducer

This development embeds `src/parser/src/lib.rs` of the `spotzero/cook-with-rust`
repository: the amount algebra (`impl Add for Amount` and the inline amount
transitions of `parse`), the document model (`Recipe`, `Metadata`, `Ingredient`,
`IngredientSpecifier`, `Timer`), and the semantic reducer `parse`.

Embedding conventions:
* Rust `f64` values are modelled as `ℚ`; the program only converts `usize`
  values to floats, adds and divides them, and compares them with `0.0`, so
  all arithmetic in scope is exact.
* Rust `String` text that is edited (the instruction buffer and matched spans)
  is modelled as `List Char`; ingredient and cookware names and map keys are
  kept as `String`.
* Every panicking control path (`panic!`, `.unwrap()`, `.expect(..)`) is
  modelled as an `Except.error` carrying the kind of the panic.
* `Uuid::new_v4()` (a fresh, otherwise unused identifier) is modelled as a
  counter incremented at each ingredient insertion.
* The pest grammar `CookLang.pest` is not among the sources; per the
  specification the tokenizer is an external collaborator.  Modelled from the
  spec: `parse` consumes the typed parse tree directly, as a list of nodes
  (metadata line, comment, or step, with ingredient / cookware / timer /
  comment spans inside steps); each node exposes its exact matched source
  substring, and numeric sub-tokens carry their already-parsed `usize` values.
-/

/-! ## Text editing: Rust `String::replace` -/

deriving instance DecidableEq for Except

/-- Number of occurrences of a character in a character list. -/
def countC (c : Char) : List Char → Nat
  | [] => 0
  | a :: s => (if a = c then 1 else 0) + countC c s

/-- Does `m` match at the beginning of `s`?  (The prefix test used by
pattern replacement.) -/
def begMatch : List Char → List Char → Bool
  | [], _ => true
  | _ :: _, [] => false
  | a :: as, b :: bs => a = b && begMatch as bs

/-- Fuel-driven scan implementing Rust `str::replace`: walk `s` left to right,
replacing every non-overlapping occurrence of `m` by `r`.  The fuel is always
instantiated with `s.length`, which suffices. -/
def replGo (m r : List Char) : Nat → List Char → List Char
  | 0, s => s
  | _ + 1, [] => []
  | fuel + 1, a :: s =>
      if begMatch m (a :: s) then r ++ replGo m r fuel (s.drop (m.length - 1))
      else a :: replGo m r fuel s

/-- Model of Rust `String::replace(m, r)`: replaces all non-overlapping
occurrences of `m`, scanning left to right.  The program only ever calls
replace with nonempty matched spans, so the empty-pattern behaviour is
irrelevant; we return `s` unchanged there. -/
def listReplace (m r s : List Char) : List Char :=
  if m.isEmpty then s else replGo m r s.length s

/-- Number of positions of `s` at which `p` matches (occurrences may
overlap).  Used to state when replacement is unambiguous. -/
def occCount (p : List Char) : List Char → Nat
  | [] => 0
  | a :: s => (if begMatch p (a :: s) then 1 else 0) + occCount p s

/-- Modelled from the spec: removal of only the **first** textual occurrence
of `p` (the behaviour the specification ascribes to comment handling). -/
def eraseFirst (p : List Char) : List Char → List Char
  | [] => []
  | a :: s => if begMatch p (a :: s) then s.drop (p.length - 1) else a :: eraseFirst p s

/-! ## Amount algebra (`enum Amount` and `impl Add for Amount`) -/

/-- The three-variant amount algebra of `lib.rs`. -/
inductive Amount where
  | Multi : ℚ → Amount
  | Servings : List ℚ → Amount
  | Single : ℚ → Amount
deriving DecidableEq

/-- Kinds of fatal errors; each Rust panic site is mapped to the error
taxonomy of the specification (`AmountAlgebraError`, `UnitMismatchError`,
`NumericParseError`), with `nonePanic` for `Option::unwrap` on `None`. -/
inductive Err where
  | amountAlgebra
  | unitMismatch
  | numericParse
  | nonePanic
deriving DecidableEq

/-- `impl Add for Amount`: `Multi + Multi` and `Single + Single` add the
values, `Servings + Servings` zips the two vectors (Rust `zip` truncates to
the shorter operand), and any mixed pairing panics with
"Unallowed Addition". -/
def addAmount : Amount → Amount → Except Err Amount
  | .Multi a, .Multi b => .ok (.Multi (a + b))
  | .Multi _, _ => .error .amountAlgebra
  | .Servings a, .Servings b => .ok (.Servings (List.zipWith (· + ·) a b))
  | .Servings _, _ => .error .amountAlgebra
  | .Single a, .Single b => .ok (.Single (a + b))
  | .Single _, _ => .error .amountAlgebra

/-- The `Rule::number` arm of the ingredient fold: fold one scanned numeric
value into the amount under construction.  (`res.len() - 1` on an empty
vector makes the Rust code panic; `Servings` vectors are never empty.) -/
def applyNextNumber (a : Option Amount) (n : ℚ) : Except Err Amount :=
  match a with
  | none => .ok (.Single n)
  | some (.Multi _) => .error .amountAlgebra
  | some (.Servings ds) =>
      match ds.getLast? with
      | none => .error .nonePanic
      | some last =>
          if last = 0 then .ok (.Servings (ds.dropLast ++ [n]))
          else .ok (.Servings (ds.dropLast ++ [last / n]))
  | some (.Single d) => .ok (.Single (d / n))

/-- The `Rule::ingredient_separator` arm: start or extend a serving-bracket
vector; with no amount yet, or on a `Multi` amount, the Rust code panics. -/
def applySeparator : Option Amount → Except Err Amount
  | none => .error .amountAlgebra
  | some (.Multi _) => .error .amountAlgebra
  | some (.Servings ds) => .ok (.Servings (ds ++ [0]))
  | some (.Single d) => .ok (.Servings [d, 0])

/-- The `Rule::scaling` arm: only a fully-resolved `Single` may be promoted
to `Multi`; anything else panics. -/
def applyScaling : Option Amount → Except Err Amount
  | some (.Single d) => .ok (.Multi d)
  | some _ => .error .amountAlgebra
  | none => .error .amountAlgebra

/-! ## Document model -/

/-- A timer mention: duration and unit. -/
structure Timer where
  amount : ℚ
  unit : String
deriving DecidableEq

/-- One entry per `@`-mention, referencing an `Ingredient` by name. -/
structure IngredientSpecifier where
  ingredient : String
  amount_in_step : Amount
deriving DecidableEq

/-- A deduplicated ingredient.  `id` models `Uuid::new_v4()` as a counter. -/
structure Ingredient where
  name : String
  id : Nat
  amount : Option Amount
  unit : Option String
deriving DecidableEq

/-- The metadata table.  `ominous` is the free-form key/value map
(`HashMap<String,String>`, last write wins); `ingredients` is the
insertion-ordered map (`IndexMap<String, Ingredient>`), modelled as an
association list with unique keys in insertion order. -/
structure Metadata where
  servings : Option (List Nat)
  ominous : List (String × String)
  ingredients : List (String × Ingredient)
  ingredients_specifiers : List IngredientSpecifier
  cookware : List String
  timer : List Timer
deriving DecidableEq

/-- The result of one reduction. -/
structure Recipe where
  source : List Char
  metadata : Metadata
  instruction : List Char
deriving DecidableEq

/-! ## The typed parse tree (the tokenizer's output; modelled from the spec) -/

/-- Sub-tokens of an ingredient span.  A `number` token carries the
`usize` values of its inner numeric tokens, in order. -/
inductive IngredientProperty where
  | name (s : String)
  | text (s : String)
  | number (ns : List Nat)
  | ingredient_separator
  | modified (s : String)
  | unit (s : String)
  | scaling
deriving DecidableEq

/-- Sub-tokens of a timer span: a numeric token or the unit text. -/
inductive TimerProperty where
  | number (n : Nat)
  | other (s : String)
deriving DecidableEq

/-- A span inside a step, exposing its exact matched source substring. -/
inductive Span where
  | ingredient (matched : List Char) (props : List IngredientProperty)
  | cookware (matched : List Char) (tokens : List String)
  | timer (matched : List Char) (props : List TimerProperty)
  | comment (matched : List Char)
deriving DecidableEq

/-- One key/value property of a metadata line; `valueTokens` are the inner
tokens of the value pair (consulted only when the key is "servings"). -/
structure MetaProperty where
  key : String
  value : String
  valueTokens : List String
deriving DecidableEq

/-- A top-level node of the parse tree. -/
inductive Node where
  | metadata (props : List MetaProperty)
  | comment (matched : List Char)
  | step (spans : List Span)
deriving DecidableEq

/-! ## The semantic reducer -/

/-- Fold a list with a fallible step, stopping at the first error (the shape
of every `for_each`-with-panic loop in `parse`). -/
def foldE (f : σ → α → Except Err σ) : σ → List α → Except Err σ
  | s, [] => .ok s
  | s, a :: l =>
      match f s a with
      | .error e => .error e
      | .ok s2 => foldE f s2 l

/-- The accumulator of the ingredient-property fold: display name under
construction, amount under construction, the `modified` annotation (parsed
but never persisted), and the declared unit. -/
structure IngAcc where
  name : String
  amount : Option Amount
  modified : Option String
  unit : Option String
deriving DecidableEq

/-- One step of the ingredient-property fold (the `match` on
`ingredient_property.as_rule()` in `parse`). -/
def ingredientStep (acc : IngAcc) : IngredientProperty → Except Err IngAcc
  | .name s => .ok { acc with name := acc.name ++ s ++ " " }
  | .text s => .ok { acc with name := acc.name ++ s ++ " " }
  | .number ns =>
      match foldE (fun a n => (applyNextNumber a (n : ℚ)).map some) acc.amount ns with
      | .error e => .error e
      | .ok am => .ok { acc with amount := am }
  | .ingredient_separator =>
      match applySeparator acc.amount with
      | .error e => .error e
      | .ok d => .ok { acc with amount := some d }
  | .modified s => .ok { acc with modified := some s }
  | .unit s => .ok { acc with unit := some s }
  | .scaling =>
      match applyScaling acc.amount with
      | .error e => .error e
      | .ok d => .ok { acc with amount := some d }

/-- Trailing-space trim: `if name.len() > 0 { name.pop(); }`. -/
def finalizeName (s : String) : String :=
  if s.length > 0 then s.dropRight 1 else s

/-- Lookup in the insertion-ordered ingredient map. -/
def lookupIng (m : List (String × Ingredient)) (k : String) : Option Ingredient :=
  (m.find? (fun p => p.1 == k)).map (·.2)

/-- In-place update of the entry with key `k` (`IndexMap::get_mut`). -/
def updateIng (m : List (String × Ingredient)) (k : String) (v : Ingredient) :
    List (String × Ingredient) :=
  m.map (fun p => if p.1 == k then (k, v) else p)

/-- `HashMap::insert`: last write wins for a repeated key. -/
def insertKV (m : List (String × String)) (k v : String) : List (String × String) :=
  if m.any (fun p => p.1 == k) then m.map (fun p => if p.1 == k then (k, v) else p)
  else m ++ [(k, v)]

/-- The reducer state: the metadata under construction, the edited
instruction buffer, and the identifier counter. -/
structure RState where
  meta : Metadata
  edited : List Char
  nextId : Nat
deriving DecidableEq

/-- Processing of one ingredient span (`Rule::ingredient` branch of `parse`):
replace the matched substring by `@`, fold the sub-tokens, push an
`IngredientSpecifier`, and create or merge the `Ingredient` entry.  The
merge adds amounts first (unwrapping the stored amount, panicking when it is
absent) and only then checks unit agreement. -/
def processIngredient (st : RState) (matched : List Char)
    (props : List IngredientProperty) : Except Err RState :=
  let edited := listReplace matched ['@'] st.edited
  match foldE ingredientStep ⟨"", none, none, none⟩ props with
  | .error e => .error e
  | .ok acc =>
    let name := finalizeName acc.name
    let spec : IngredientSpecifier := ⟨name, acc.amount.getD (.Single 0)⟩
    let specs := st.meta.ingredients_specifiers ++ [spec]
    match lookupIng st.meta.ingredients name with
    | some ing =>
      let newAmount : Except Err (Option Amount) :=
        match acc.amount with
        | none => .ok ing.amount
        | some amount =>
          match ing.amount with
          | none => .error .nonePanic
          | some stored =>
            match addAmount stored amount with
            | .error e => .error e
            | .ok c => .ok (some c)
      match newAmount with
      | .error e => .error e
      | .ok am =>
        if ing.unit ≠ acc.unit then .error .unitMismatch
        else
          .ok { st with
            edited := edited,
            meta := { st.meta with
              ingredients := updateIng st.meta.ingredients name { ing with amount := am, unit := acc.unit },
              ingredients_specifiers := specs } }
    | none =>
      .ok { st with
        edited := edited,
        nextId := st.nextId + 1,
        meta := { st.meta with
          ingredients := st.meta.ingredients ++ [(name, ⟨name, st.nextId, acc.amount, acc.unit⟩)],
          ingredients_specifiers := specs } }

/-- Processing of one span inside a step. -/
def processSpan (st : RState) : Span → Except Err RState
  | .ingredient m props => processIngredient st m props
  | .cookware m tokens =>
      let edited := listReplace m ['#'] st.edited
      let name : String := tokens.foldl (fun acc t => acc ++ t ++ " ") ""
      if name = "" then .error .nonePanic
      else .ok { st with
        edited := edited,
        meta := { st.meta with cookware := st.meta.cookware ++ [name.dropRight 1] } }
  | .timer m props =>
      let edited := listReplace m ['~'] st.edited
      let t := props.foldl
        (fun (tm : Timer) p =>
          match p with
          | .number n => { tm with amount := (n : ℚ) }
          | .other s => { tm with unit := s })
        ⟨0, ""⟩
      .ok { st with
        edited := edited,
        meta := { st.meta with timer := st.meta.timer ++ [t] } }
  | .comment m => .ok { st with edited := listReplace m [] st.edited }

/-- Processing of one metadata property: "servings" is split on the pipe
delimiter and parsed as unsigned integers; any other key goes to the
free-form map. -/
def processMetaProperty (st : RState) (p : MetaProperty) : Except Err RState :=
  if p.key ≠ "servings" then
    .ok { st with meta := { st.meta with ominous := insertKV st.meta.ominous p.key p.value } }
  else
    match foldE
        (fun (acc : List Nat) tok =>
          if tok ≠ "|" then
            match tok.toNat? with
            | some n => .ok (acc ++ [n])
            | none => .error .numericParse
          else .ok acc)
        [] p.valueTokens with
    | .error e => .error e
    | .ok sv => .ok { st with meta := { st.meta with servings := some sv } }

/-- Processing of one top-level node. -/
def processNode (st : RState) : Node → Except Err RState
  | .metadata props => foldE processMetaProperty st props
  | .comment m => .ok { st with edited := listReplace m [] st.edited }
  | .step spans => foldE processSpan st spans

/-- The initial reducer state over a source document. -/
def initState (src : List Char) : RState :=
  ⟨⟨none, [], [], [], [], []⟩, src, 0⟩

/-- The semantic reducer `parse`.  Modelled from the spec: the external
tokenizer's typed parse tree is consumed directly (the grammar is not among
the sources), so `parse` takes the source text and its tree of typed nodes;
the walk itself follows `parse` of `lib.rs` line by line. -/
def parse (src : List Char) (nodes : List Node) : Except Err Recipe :=
  match foldE processNode (initState src) nodes with
  | .error e => .error e
  | .ok st => .ok ⟨src, st.meta, st.edited⟩

/-! ## Basic lemmas about the text-editing primitives -/

theorem countC_append (c : Char) (s t : List Char) :
    countC c (s ++ t) = countC c s + countC c t := by
  induction s with
  | nil => simp [countC]
  | cons a s ih => simp [countC, ih]; omega

theorem begMatch_eq_append (m : List Char) :
    ∀ s, begMatch m s = true → s = m ++ s.drop m.length := by
  induction m with
  | nil => intro s _; simp
  | cons a as ih =>
    intro s h
    cases s with
    | nil => simp [begMatch] at h
    | cons b bs =>
      simp only [begMatch, Bool.and_eq_true, decide_eq_true_eq] at h
      obtain ⟨h1, h2⟩ := h
      have hb := ih bs h2
      simp only [List.length_cons, List.cons_append, List.drop_succ_cons]
      rw [h1]
      exact congrArg (b :: ·) hb

/-- With a nonempty pattern matching at `a :: s`, the scan resumes at
`s.drop (m.length - 1)`, which is exactly `(a :: s).drop m.length`. -/
theorem drop_of_begMatch {m : List Char} (hm : m ≠ []) (a : Char) (s : List Char) :
    s.drop (m.length - 1) = (a :: s).drop m.length := by
  cases m with
  | nil => exact absurd rfl hm
  | cons x xs => simp

theorem countC_replGo (c : Char) {m r : List Char} (hm : m ≠ [])
    (hcr : countC c m = countC c r) :
    ∀ fuel s, countC c (replGo m r fuel s) = countC c s := by
  intro fuel
  induction fuel with
  | zero => intro s; rfl
  | succ n ih =>
    intro s
    cases s with
    | nil => rfl
    | cons a s =>
      by_cases h : begMatch m (a :: s) = true
      · have hd := begMatch_eq_append m (a :: s) h
        simp only [replGo, h, if_true]
        rw [countC_append, ih, drop_of_begMatch hm]
        conv_rhs => rw [hd]
        rw [countC_append, hcr]
      · simp only [replGo, h, if_false]
        simp only [countC, ih]

/-- Replacing every occurrence of `m` by `r` preserves the count of any
character occurring equally often in `m` and in `r`. -/
theorem countC_listReplace (c : Char) {m r : List Char}
    (hcr : countC c m = countC c r) (s : List Char) :
    countC c (listReplace m r s) = countC c s := by
  unfold listReplace
  by_cases hm : m.isEmpty
  · simp [hm]
  · simp only [hm, if_false]
    exact countC_replGo c (by simpa [List.isEmpty_iff] using hm) hcr _ s

/-! ## Basic lemmas about `foldE` -/

theorem foldE_nil (f : σ → α → Except Err σ) (s : σ) : foldE f s [] = .ok s := rfl

theorem foldE_cons_ok {f : σ → α → Except Err σ} {s s1 : σ} {a : α} {l : List α}
    (h : f s a = .ok s1) : foldE f s (a :: l) = foldE f s1 l := by
  simp [foldE, h]

theorem foldE_cons_err {f : σ → α → Except Err σ} {s : σ} {a : α} {e : Err} {l : List α}
    (h : f s a = .error e) : foldE f s (a :: l) = .error e := by
  simp [foldE, h]

/-! ## Amount-algebra helper lemmas -/

/-- Discriminant of the three `Amount` variants. -/
def tagOf : Amount → Nat
  | .Multi _ => 0
  | .Servings _ => 1
  | .Single _ => 2

theorem addAmount_tag_ne {a b : Amount} (h : tagOf a ≠ tagOf b) :
    addAmount a b = .error .amountAlgebra := by
  cases a <;> cases b <;> simp [tagOf] at h ⊢ <;> rfl

theorem addAmount_tag_eq {a b : Amount} (h : tagOf a = tagOf b) :
    ∃ c, addAmount a b = .ok c := by
  cases a <;> cases b <;> simp [tagOf] at h ⊢ <;> exact ⟨_, rfl⟩

theorem addAmount_ok_tag {a b c : Amount} (h : addAmount a b = .ok c) :
    tagOf a = tagOf b ∧ tagOf c = tagOf a := by
  cases a <;> cases b <;> simp [addAmount] at h <;> subst h <;> simp [tagOf]

/-! ## Claim theorems for the amount algebra (C4–C7) -/

/-- C4: amended.  `addAmount` fails unless both operands carry the same
variant tag; `Single` and `Multi` add their values; `Servings + Servings`
always succeeds and yields the element-wise sum truncated to the shorter
operand — no length check is performed on the two vectors. -/
theorem claim_C4 (x y : ℚ) (xs ys : List ℚ) (a b : Amount) :
    addAmount (.Single x) (.Single y) = .ok (.Single (x + y)) ∧
    addAmount (.Multi x) (.Multi y) = .ok (.Multi (x + y)) ∧
    addAmount (.Servings xs) (.Servings ys) = .ok (.Servings (List.zipWith (· + ·) xs ys)) ∧
    (tagOf a ≠ tagOf b → addAmount a b = .error .amountAlgebra) :=
  ⟨rfl, rfl, rfl, addAmount_tag_ne⟩

/-- C4: witness that the mismatched-tag hypothesis is satisfiable. -/
theorem claim_C4_witness :
    tagOf (Amount.Single 1) ≠ tagOf (Amount.Multi 1) ∧
    addAmount (Amount.Single 1) (Amount.Multi 1) = .error .amountAlgebra :=
  ⟨by decide, (claim_C4 1 1 [] [] (Amount.Single 1) (Amount.Multi 1)).2.2.2 (by decide)⟩

/-- C4: counterexample to the claim as stated.  Adding two `Servings`
amounts of different lengths does **not** fail: Rust `zip` silently
truncates, so `Servings [1, 2] + Servings [3]` succeeds with `Servings [4]`
instead of raising an `AmountAlgebraError`. -/
theorem claim_C4_cex :
    addAmount (Amount.Servings [1, 2]) (Amount.Servings [3]) =
      .ok (Amount.Servings [4]) := by
  with_unfolding_all decide

/-! ## Mentions: the folded view of one ingredient span -/

/-- The observable content of one ingredient mention: normalized display
name, declared amount, declared unit. -/
structure Mention where
  name : String
  amount : Option Amount
  unit : Option String
deriving DecidableEq

/-- The result of folding an ingredient span's sub-tokens, packaged as a
`Mention`; `none` when the fold panics. -/
def mentionOfProps (props : List IngredientProperty) : Option Mention :=
  match foldE ingredientStep ⟨"", none, none, none⟩ props with
  | .ok acc => some ⟨finalizeName acc.name, acc.amount, acc.unit⟩
  | .error _ => none

theorem mentionOfProps_some {p : List IngredientProperty} {me : Mention}
    (h : mentionOfProps p = some me) :
    ∃ acc, foldE ingredientStep ⟨"", none, none, none⟩ p = .ok acc ∧
      me = ⟨finalizeName acc.name, acc.amount, acc.unit⟩ := by
  unfold mentionOfProps at h
  cases hf : foldE ingredientStep ⟨"", none, none, none⟩ p with
  | error e => rw [hf] at h; simp at h
  | ok acc => rw [hf] at h; simp at h; exact ⟨acc, rfl, h.symm⟩

/-! ## Shape lemmas for ingredient-span processing -/

/-- Processing an ingredient span whose normalized name is new: a fresh
entry is appended and a specifier is pushed. -/
theorem processIngredient_new (st : RState) {m : List Char}
    {p : List IngredientProperty} {acc : IngAcc}
    (h : foldE ingredientStep ⟨"", none, none, none⟩ p = .ok acc)
    (hl : lookupIng st.meta.ingredients (finalizeName acc.name) = none) :
    processIngredient st m p = .ok ⟨⟨st.meta.servings, st.meta.ominous,
      st.meta.ingredients ++
        [(finalizeName acc.name, ⟨finalizeName acc.name, st.nextId, acc.amount, acc.unit⟩)],
      st.meta.ingredients_specifiers ++ [⟨finalizeName acc.name, acc.amount.getD (.Single 0)⟩],
      st.meta.cookware, st.meta.timer⟩,
      listReplace m ['@'] st.edited, st.nextId + 1⟩ := by
  unfold processIngredient
  rw [h]
  simp only [hl]

/-- Processing an ingredient span whose normalized name is already present:
the stored amount is combined with the new one (unwrapping it first), then
units are compared, then the entry is updated in place. -/
theorem processIngredient_merge (st : RState) {m : List Char}
    {p : List IngredientProperty} {acc : IngAcc} {ing : Ingredient}
    (h : foldE ingredientStep ⟨"", none, none, none⟩ p = .ok acc)
    (hl : lookupIng st.meta.ingredients (finalizeName acc.name) = some ing) :
    processIngredient st m p =
      (match (match acc.amount with
        | none => Except.ok ing.amount
        | some amount =>
          match ing.amount with
          | none => Except.error Err.nonePanic
          | some stored =>
            match addAmount stored amount with
            | .error e => .error e
            | .ok c => .ok (some c)) with
       | .error e => .error e
       | .ok am =>
         if ing.unit ≠ acc.unit then .error .unitMismatch
         else .ok ⟨⟨st.meta.servings, st.meta.ominous,
           updateIng st.meta.ingredients (finalizeName acc.name) ⟨ing.name, ing.id, am, acc.unit⟩,
           st.meta.ingredients_specifiers ++ [⟨finalizeName acc.name, acc.amount.getD (.Single 0)⟩],
           st.meta.cookware, st.meta.timer⟩,
           listReplace m ['@'] st.edited, st.nextId⟩) := by
  unfold processIngredient
  rw [h]
  simp only [hl]

/-- `parse` on a single-step tree is the span fold over that step. -/
theorem parse_one_step (src : List Char) (spans : List Span) :
    parse src [.step spans] =
      match foldE processSpan (initState src) spans with
      | .error e => .error e
      | .ok st => .ok ⟨src, st.meta, st.edited⟩ := by
  unfold parse
  cases hf : foldE processSpan (initState src) spans with
  | error e => simp [foldE, processNode, hf]
  | ok st => simp [foldE, processNode, hf]

theorem foldE_singleton (f : σ → α → Except Err σ) (s : σ) (a : α) :
    foldE f s [a] =
      match f s a with
      | .error e => .error e
      | .ok s2 => .ok s2 := by
  cases h : f s a with
  | error e => simp [foldE, h]
  | ok s2 => simp [foldE, h]

/-- Processing a two-mention step whose second span fails: the whole
reduction fails with that error. -/
theorem parse_two_err (src m1 m2 : List Char) {p1 p2 : List IngredientProperty}
    {acc1 : IngAcc} {e : Err}
    (hf1 : foldE ingredientStep ⟨"", none, none, none⟩ p1 = .ok acc1)
    (hres : processIngredient
      ⟨⟨none, [],
        [(finalizeName acc1.name, ⟨finalizeName acc1.name, 0, acc1.amount, acc1.unit⟩)],
        [⟨finalizeName acc1.name, acc1.amount.getD (.Single 0)⟩], [], []⟩,
       listReplace m1 ['@'] src, 1⟩ m2 p2 = .error e) :
    parse src [.step [.ingredient m1 p1, .ingredient m2 p2]] = .error e := by
  rw [parse_one_step, foldE_cons_ok (processIngredient_new (initState src) hf1 rfl)]
  simp only [initState, List.nil_append, Nat.zero_add]
  rw [foldE_singleton]
  simp only [processSpan]
  rw [hres]

/-- Processing a two-mention step whose second span succeeds: the reduction
returns the resulting metadata and edited text. -/
theorem parse_two_ok (src m1 m2 : List Char) {p1 p2 : List IngredientProperty}
    {acc1 : IngAcc} {st : RState}
    (hf1 : foldE ingredientStep ⟨"", none, none, none⟩ p1 = .ok acc1)
    (hres : processIngredient
      ⟨⟨none, [],
        [(finalizeName acc1.name, ⟨finalizeName acc1.name, 0, acc1.amount, acc1.unit⟩)],
        [⟨finalizeName acc1.name, acc1.amount.getD (.Single 0)⟩], [], []⟩,
       listReplace m1 ['@'] src, 1⟩ m2 p2 = .ok st) :
    parse src [.step [.ingredient m1 p1, .ingredient m2 p2]] =
      .ok ⟨src, st.meta, st.edited⟩ := by
  rw [parse_one_step, foldE_cons_ok (processIngredient_new (initState src) hf1 rfl)]
  simp only [initState, List.nil_append, Nat.zero_add]
  rw [foldE_singleton]
  simp only [processSpan]
  rw [hres]

/-! ## Claim theorems about ingredient merging (C2, C9, C10) -/

/-- Modelled from the amended claim: the variant-wise sum with `Servings`
vectors summed element-wise up to the shorter length. -/
def truncSum : Amount → Amount → Option Amount
  | .Single x, .Single y => some (.Single (x + y))
  | .Multi x, .Multi y => some (.Multi (x + y))
  | .Servings xs, .Servings ys => some (.Servings (List.zipWith (· + ·) xs ys))
  | _, _ => none

/-- Modelled from the spec: the variant-wise sum, defined only for matching
variants and, for `Servings`, only at equal lengths. -/
def variantSum : Amount → Amount → Option Amount
  | .Single x, .Single y => some (.Single (x + y))
  | .Multi x, .Multi y => some (.Multi (x + y))
  | .Servings xs, .Servings ys =>
      if xs.length = ys.length then some (.Servings (List.zipWith (· + ·) xs ys)) else none
  | _, _ => none

theorem truncSum_addAmount {a b c : Amount} (h : truncSum a b = some c) :
    addAmount a b = .ok c := by
  cases a <;> cases b <;> simp [truncSum] at h <;> simp [addAmount, h]

theorem lookupIng_single_self (k : String) (i : Ingredient) :
    lookupIng [(k, i)] k = some i := by
  simp [lookupIng]

theorem updateIng_single_self (k : String) (i v : Ingredient) :
    updateIng [(k, i)] k v = [(k, v)] := by
  simp [updateIng]

/-- C2: amended.  Two mentions of the same normalized name with the same
declared unit and amounts of identical variant merge into exactly one map
entry whose amount is the variant-wise sum, where for `Servings` vectors of
unequal length the sum truncates to the shorter operand; in particular
`@salt{1}` followed by `@salt{2}` yields the single ingredient "salt" with
amount `Single 3`. -/
theorem claim_C2 (src m1 m2 : List Char) (p1 p2 : List IngredientProperty)
    (n : String) (a1 a2 : Amount) (u : Option String) (c : Amount)
    (h1 : mentionOfProps p1 = some ⟨n, some a1, u⟩)
    (h2 : mentionOfProps p2 = some ⟨n, some a2, u⟩)
    (hs : truncSum a1 a2 = some c) :
    ∃ r, parse src [.step [.ingredient m1 p1, .ingredient m2 p2]] = .ok r ∧
      r.metadata.ingredients = [(n, ⟨n, 0, some c, u⟩)] ∧
      r.metadata.ingredients_specifiers = [⟨n, a1⟩, ⟨n, a2⟩] := by
  obtain ⟨acc1, hf1, hme1⟩ := mentionOfProps_some h1
  obtain ⟨acc2, hf2, hme2⟩ := mentionOfProps_some h2
  obtain ⟨nm1, am1, md1, un1⟩ := acc1
  obtain ⟨nm2, am2, md2, un2⟩ := acc2
  simp only [Mention.mk.injEq] at hme1 hme2
  obtain ⟨hn1, ha1, hu1⟩ := hme1
  obtain ⟨hn2, ha2, hu2⟩ := hme2
  subst ha1
  subst ha2
  subst hu1
  subst hu2
  subst hn1
  have hl2 : lookupIng [(finalizeName nm1,
        (⟨finalizeName nm1, 0, some a1, u⟩ : Ingredient))]
      (finalizeName nm2) =
      some ⟨finalizeName nm1, 0, some a1, u⟩ := by
    rw [← hn2]; exact lookupIng_single_self _ _
  have hmerge := @processIngredient_merge
    ⟨⟨none, [],
      [(finalizeName nm1, ⟨finalizeName nm1, 0, some a1, u⟩)],
      [⟨finalizeName nm1, (some a1).getD (.Single 0)⟩], [], []⟩,
     listReplace m1 ['@'] src, 1⟩ m2 p2 ⟨nm2, some a2, md2, u⟩
    ⟨finalizeName nm1, 0, some a1, u⟩ hf2 hl2
  simp only [truncSum_addAmount hs, ne_eq, not_true_eq_false, ite_false,
    Option.getD_some] at hmerge
  rw [parse_two_ok src m1 m2 hf1 hmerge]
  refine ⟨_, rfl, ?_, ?_⟩
  · rw [← hn2, updateIng_single_self]
  · simp [← hn2]

/-- C9: confirmed.  When the first mention of a name declares no amount and
a later mention of the same name does declare one, the merge unwraps the
stored `None` amount and the reduction panics: `parse` fails with the
`Option::unwrap`-on-`None` panic. -/
theorem claim_C9 (src m1 m2 : List Char) (p1 p2 : List IngredientProperty)
    (n : String) (u1 u2 : Option String) (a : Amount)
    (h1 : mentionOfProps p1 = some ⟨n, none, u1⟩)
    (h2 : mentionOfProps p2 = some ⟨n, some a, u2⟩) :
    parse src [.step [.ingredient m1 p1, .ingredient m2 p2]] = .error .nonePanic := by
  obtain ⟨acc1, hf1, hme1⟩ := mentionOfProps_some h1
  obtain ⟨acc2, hf2, hme2⟩ := mentionOfProps_some h2
  obtain ⟨nm1, am1, md1, un1⟩ := acc1
  obtain ⟨nm2, am2, md2, un2⟩ := acc2
  simp only [Mention.mk.injEq] at hme1 hme2
  obtain ⟨hn1, ha1, hu1⟩ := hme1
  obtain ⟨hn2, ha2, hu2⟩ := hme2
  subst ha1
  subst ha2
  subst hu1
  subst hu2
  subst hn1
  have hl2 : lookupIng [(finalizeName nm1,
        (⟨finalizeName nm1, 0, none, u1⟩ : Ingredient))]
      (finalizeName nm2) =
      some ⟨finalizeName nm1, 0, none, u1⟩ := by
    rw [← hn2]; exact lookupIng_single_self _ _
  have hmerge := @processIngredient_merge
    ⟨⟨none, [],
      [(finalizeName nm1, ⟨finalizeName nm1, 0, none, u1⟩)],
      [⟨finalizeName nm1, Option.getD none (.Single 0)⟩], [], []⟩,
     listReplace m1 ['@'] src, 1⟩ m2 p2 ⟨nm2, some a, md2, u2⟩
    ⟨finalizeName nm1, 0, none, u1⟩ hf2 hl2
  simp only [] at hmerge
  exact parse_two_err src m1 m2 hf1 hmerge

/-- C10: confirmed.  An ingredient mention declaring no amount still appends
an `IngredientSpecifier` whose `amount_in_step` is the default `Single 0`,
while the `Ingredient` entry itself stores `amount = none`. -/
theorem claim_C10 (src m : List Char) (p : List IngredientProperty)
    (n : String) (u : Option String)
    (h : mentionOfProps p = some ⟨n, none, u⟩) :
    ∃ r, parse src [.step [.ingredient m p]] = .ok r ∧
      r.metadata.ingredients_specifiers = [⟨n, .Single 0⟩] ∧
      lookupIng r.metadata.ingredients n = some ⟨n, 0, none, u⟩ := by
  obtain ⟨acc, hf, hme⟩ := mentionOfProps_some h
  obtain ⟨nm, am, md, un⟩ := acc
  simp only [Mention.mk.injEq] at hme
  obtain ⟨hn, ha, hu⟩ := hme
  subst ha
  subst hu
  subst hn
  rw [parse_one_step, foldE_cons_ok (processIngredient_new (initState src) hf rfl), foldE_nil]
  refine ⟨_, rfl, ?_, ?_⟩
  · simp [initState]
  · simp only [initState, List.nil_append]
    rw [lookupIng_single_self]

/-- C2: counterexample to the claim as stated.  Two mentions of `x` with
`Servings` amounts of unequal length (`{1/2/3}` then `{4/5}`) have identical
variant tags, yet the merged entry holds the truncating sum
`Servings [5, 7]`, which is not the spec's variant-wise sum (that sum is
undefined at these lengths: the spec demands failure). -/
theorem claim_C2_cex :
    (parse "@x{1/2/3} @x{4/5}".toList
      [.step [.ingredient "@x{1/2/3}".toList
                [.name "x", .number [1], .ingredient_separator, .number [2],
                 .ingredient_separator, .number [3]],
              .ingredient "@x{4/5}".toList
                [.name "x", .number [4], .ingredient_separator, .number [5]]]]).map
        (fun r => r.metadata.ingredients) =
      .ok [("x", ⟨"x", 0, some (.Servings [5, 7]), none⟩)] ∧
    variantSum (.Servings [1, 2, 3]) (.Servings [4, 5]) = none := by
  constructor
  · with_unfolding_all decide
  · with_unfolding_all decide

/-- C2: witness.  The salt scenario: `@salt{1}` then `@salt{2}` produce the
single ingredient "salt" with amount `Single 3`. -/
theorem claim_C2_witness :
    ∃ r, parse "Use @salt{1} and @salt{2}".toList
        [.step [.ingredient "@salt{1}".toList [.name "salt", .number [1]],
                .ingredient "@salt{2}".toList [.name "salt", .number [2]]]] = .ok r ∧
      r.metadata.ingredients = [("salt", ⟨"salt", 0, some (.Single 3), none⟩)] ∧
      r.metadata.ingredients_specifiers = [⟨"salt", .Single 1⟩, ⟨"salt", .Single 2⟩] :=
  claim_C2 "Use @salt{1} and @salt{2}".toList "@salt{1}".toList "@salt{2}".toList
    [.name "salt", .number [1]] [.name "salt", .number [2]]
    "salt" (.Single 1) (.Single 2) none (.Single 3)
    (by with_unfolding_all decide) (by with_unfolding_all decide)
    (by with_unfolding_all decide)

/-- C9: witness.  `@salt` without an amount followed by `@salt{2}` makes the
reduction fail with the unwrap-on-`None` panic. -/
theorem claim_C9_witness :
    parse "Add @salt and @salt{2}".toList
      [.step [.ingredient "@salt".toList [.name "salt"],
              .ingredient "@salt{2}".toList [.name "salt", .number [2]]]] =
      .error .nonePanic :=
  claim_C9 _ _ _ _ _ "salt" none none (.Single 2)
    (by with_unfolding_all decide) (by with_unfolding_all decide)

/-- C10: witness.  A bare `@salt` mention produces a specifier with the
default `Single 0` amount while the entry stores no amount. -/
theorem claim_C10_witness :
    ∃ r, parse "Add @salt now".toList
        [.step [.ingredient "@salt".toList [.name "salt"]]] = .ok r ∧
      r.metadata.ingredients_specifiers = [⟨"salt", .Single 0⟩] ∧
      lookupIng r.metadata.ingredients "salt" = some ⟨"salt", 0, none, none⟩ :=
  claim_C10 _ _ _ "salt" none (by with_unfolding_all decide)

/-! ## The no-silent-coercion invariant (C3) -/

/-- Mentions contributed by one span (none when the span's fold panics; a
successful parse forces every fold to succeed). -/
def mentionsOfSpan : Span → List Mention
  | .ingredient _ props => (mentionOfProps props).toList
  | _ => []

/-- Mentions contributed by one node. -/
def mentionsOfNode : Node → List Mention
  | .step spans => (spans.map mentionsOfSpan).flatten
  | _ => []

/-- All ingredient mentions of a tree, in processing order. -/
def mentionsOfTree (t : List Node) : List Mention := (t.map mentionsOfNode).flatten

/-- The reducer invariant: every past mention is keyed in the ingredient
map, carries the stored unit, and (when it declared an amount) its variant
tag agrees with the stored amount's tag. -/
def compat (past : List Mention) (ings : List (String × Ingredient)) : Prop :=
  ∀ me ∈ past, ∃ ing, lookupIng ings me.name = some ing ∧ me.unit = ing.unit ∧
    ∀ a, me.amount = some a → ∃ b, ing.amount = some b ∧ tagOf a = tagOf b

theorem lookupIng_cons (p : String × Ingredient) (l : List (String × Ingredient))
    (k : String) :
    lookupIng (p :: l) k = if p.1 == k then some p.2 else lookupIng l k := by
  unfold lookupIng
  cases hb : p.1 == k <;> simp [List.find?_cons, hb]

theorem lookupIng_append_some {l : List (String × Ingredient)} {k : String}
    {i : Ingredient} (h : lookupIng l k = some i) (l2 : List (String × Ingredient)) :
    lookupIng (l ++ l2) k = some i := by
  induction l with
  | nil => simp [lookupIng] at h
  | cons p l ih =>
    rw [lookupIng_cons] at h
    rw [List.cons_append, lookupIng_cons]
    cases hb : p.1 == k with
    | true => simpa [hb] using h
    | false =>
      rw [hb] at h
      simpa [hb] using ih (by simpa using h)

theorem lookupIng_append_none {l : List (String × Ingredient)} {k : String}
    (h : lookupIng l k = none) (x : Ingredient) :
    lookupIng (l ++ [(k, x)]) k = some x := by
  induction l with
  | nil => simp [lookupIng]
  | cons p l ih =>
    rw [lookupIng_cons] at h
    rw [List.cons_append, lookupIng_cons]
    cases hb : p.1 == k with
    | true => rw [hb] at h; simp at h
    | false =>
      rw [hb] at h
      simpa [hb] using ih h

theorem lookupIng_update_self {l : List (String × Ingredient)} {k : String}
    {i : Ingredient} (h : lookupIng l k = some i) (v : Ingredient) :
    lookupIng (updateIng l k v) k = some v := by
  induction l with
  | nil => simp [lookupIng] at h
  | cons p l ih =>
    rw [lookupIng_cons] at h
    simp only [updateIng, List.map_cons]
    cases hb : p.1 == k with
    | true => simp [lookupIng_cons]
    | false =>
      rw [hb] at h
      have := ih (by simpa using h)
      simpa [lookupIng_cons, hb, updateIng] using this

theorem lookupIng_update_ne {l : List (String × Ingredient)} {k k2 : String}
    (hne : k2 ≠ k) (v : Ingredient) :
    lookupIng (updateIng l k v) k2 = lookupIng l k2 := by
  induction l with
  | nil => simp [lookupIng, updateIng]
  | cons p l ih =>
    simp only [updateIng, List.map_cons]
    cases hb : p.1 == k with
    | true =>
      have hk : p.1 = k := by simpa using hb
      have h1 : (k == k2) = false := by simpa using (Ne.symm hne)
      have h2 : (p.1 == k2) = false := by rw [hk]; exact h1
      simpa [lookupIng_cons, h1, h2, updateIng] using ih
    | false =>
      cases hb2 : p.1 == k2 with
      | true => simp [lookupIng_cons, hb2]
      | false => simpa [lookupIng_cons, hb2, updateIng] using ih

theorem processMetaProperty_fields {st st2 : RState} {p : MetaProperty}
    (h : processMetaProperty st p = .ok st2) :
    st2.edited = st.edited ∧ st2.meta.ingredients = st.meta.ingredients ∧
    st2.meta.ingredients_specifiers = st.meta.ingredients_specifiers ∧
    st2.meta.cookware = st.meta.cookware ∧ st2.meta.timer = st.meta.timer := by
  unfold processMetaProperty at h
  split at h
  · cases h
    exact ⟨rfl, rfl, rfl, rfl, rfl⟩
  · split at h
    · cases h
    · cases h
      exact ⟨rfl, rfl, rfl, rfl, rfl⟩

theorem metaProps_fields :
    ∀ {props : List MetaProperty} {st st1 : RState},
      foldE processMetaProperty st props = .ok st1 →
      st1.edited = st.edited ∧ st1.meta.ingredients = st.meta.ingredients ∧
      st1.meta.ingredients_specifiers = st.meta.ingredients_specifiers ∧
      st1.meta.cookware = st.meta.cookware ∧ st1.meta.timer = st.meta.timer := by
  intro props
  induction props with
  | nil =>
    intro st st1 h
    cases h
    exact ⟨rfl, rfl, rfl, rfl, rfl⟩
  | cons p l ih =>
    intro st st1 h
    cases hp : processMetaProperty st p with
    | error e => rw [foldE_cons_err hp] at h; cases h
    | ok st2 =>
      rw [foldE_cons_ok hp] at h
      obtain ⟨e1, e2, e3, e4, e5⟩ := processMetaProperty_fields hp
      obtain ⟨f1, f2, f3, f4, f5⟩ := ih h
      exact ⟨f1.trans e1, f2.trans e2, f3.trans e3, f4.trans e4, f5.trans e5⟩

theorem processSpan_compat {st st1 : RState} {sp : Span} {past : List Mention}
    (h : processSpan st sp = .ok st1) (hc : compat past st.meta.ingredients) :
    compat (past ++ mentionsOfSpan sp) st1.meta.ingredients := by
  cases sp with
  | cookware m tokens =>
    simp only [processSpan] at h
    split at h
    · cases h
    · cases h
      simpa [mentionsOfSpan] using hc
  | timer m props =>
    simp only [processSpan] at h
    cases h
    simpa [mentionsOfSpan] using hc
  | comment m =>
    simp only [processSpan] at h
    cases h
    simpa [mentionsOfSpan] using hc
  | ingredient m props =>
    simp only [processSpan] at h
    unfold processIngredient at h
    cases hf : foldE ingredientStep ⟨"", none, none, none⟩ props with
    | error e => rw [hf] at h; cases h
    | ok acc =>
      rw [hf] at h
      have hm : mentionsOfSpan (.ingredient m props)
          = [⟨finalizeName acc.name, acc.amount, acc.unit⟩] := by
        simp [mentionsOfSpan, mentionOfProps, hf]
      rw [hm]
      cases hl : lookupIng st.meta.ingredients (finalizeName acc.name) with
      | none =>
        simp only [hl] at h
        cases h
        intro me hme
        rw [List.mem_append] at hme
        rcases hme with hpast | hnew
        · obtain ⟨ing, hlk, hun, htag⟩ := hc me hpast
          exact ⟨ing, lookupIng_append_some hlk _, hun, htag⟩
        · rw [List.mem_singleton] at hnew
          subst hnew
          refine ⟨⟨finalizeName acc.name, st.nextId, acc.amount, acc.unit⟩,
            lookupIng_append_none hl _, rfl, ?_⟩
          intro a ha
          exact ⟨a, ha, rfl⟩
      | some ing =>
        simp only [hl] at h
        split at h
        next e heq => cases h
        next am heq =>
          split at h
          next hunit => cases h
          next hunit =>
            have huEq : ing.unit = acc.unit := of_not_not hunit
            cases h
            intro me hme
            rw [List.mem_append] at hme
            rcases hme with hpast | hnew
            · obtain ⟨ing2, hlk, hun, htag⟩ := hc me hpast
              by_cases hname : me.name = finalizeName acc.name
              · rw [hname] at hlk
                have hing : ing = ing2 := Option.some.inj (hl.symm.trans hlk)
                subst hing
                refine ⟨⟨ing.name, ing.id, am, acc.unit⟩, ?_, hun.trans huEq, ?_⟩
                · have := lookupIng_update_self hl
                    (⟨ing.name, ing.id, am, acc.unit⟩ : Ingredient)
                  rw [hname]
                  exact this
                · intro a ha
                  obtain ⟨b, hb, htag2⟩ := htag a ha
                  cases hacc : acc.amount with
                  | none =>
                    simp only [hacc, Except.ok.injEq] at heq
                    exact ⟨b, heq.symm.trans hb, htag2⟩
                  | some amt =>
                    simp only [hacc] at heq
                    cases hia : ing.amount with
                    | none => simp only [hia] at heq; cases heq
                    | some stored =>
                      simp only [hia] at heq
                      cases hadd : addAmount stored amt with
                      | error e2 => simp only [hadd] at heq; cases heq
                      | ok c =>
                        simp only [hadd, Except.ok.injEq] at heq
                        have hbs : stored = b := Option.some.inj (hia.symm.trans hb)
                        have htc := (addAmount_ok_tag hadd).2
                        refine ⟨c, heq.symm, htag2.trans ?_⟩
                        rw [← hbs]
                        exact htc.symm
              · exact ⟨ing2, (lookupIng_update_ne hname _).trans hlk, hun, htag⟩
            · rw [List.mem_singleton] at hnew
              subst hnew
              refine ⟨⟨ing.name, ing.id, am, acc.unit⟩,
                lookupIng_update_self hl _, rfl, ?_⟩
              intro a ha
              rw [show (⟨finalizeName acc.name, acc.amount, acc.unit⟩ :
                Mention).amount = acc.amount from rfl] at ha
              simp only [ha] at heq
              cases hia : ing.amount with
              | none => simp only [hia] at heq; cases heq
              | some stored =>
                simp only [hia] at heq
                cases hadd : addAmount stored a with
                | error e2 => simp only [hadd] at heq; cases heq
                | ok c =>
                  simp only [hadd, Except.ok.injEq] at heq
                  obtain ⟨ht1, ht2⟩ := addAmount_ok_tag hadd
                  exact ⟨c, heq.symm, ht1.symm.trans ht2.symm⟩

theorem spansFold_compat :
    ∀ {spans : List Span} {st st1 : RState} {past : List Mention},
      foldE processSpan st spans = .ok st1 → compat past st.meta.ingredients →
      compat (past ++ (spans.map mentionsOfSpan).flatten) st1.meta.ingredients := by
  intro spans
  induction spans with
  | nil =>
    intro st st1 past h hc
    cases h
    simpa using hc
  | cons sp l ih =>
    intro st st1 past h hc
    cases hp : processSpan st sp with
    | error e => rw [foldE_cons_err hp] at h; cases h
    | ok st2 =>
      rw [foldE_cons_ok hp] at h
      have h2 := processSpan_compat hp hc
      have h3 := ih h h2
      simpa [List.append_assoc] using h3

theorem processNode_compat {st st1 : RState} {nd : Node} {past : List Mention}
    (h : processNode st nd = .ok st1) (hc : compat past st.meta.ingredients) :
    compat (past ++ mentionsOfNode nd) st1.meta.ingredients := by
  cases nd with
  | metadata props =>
    simp only [processNode] at h
    have he := (metaProps_fields h).2.1
    simp only [mentionsOfNode, List.append_nil]
    rw [he]
    exact hc
  | comment m =>
    simp only [processNode] at h
    cases h
    simpa [mentionsOfNode] using hc
  | step spans =>
    simp only [processNode] at h
    simp only [mentionsOfNode]
    exact spansFold_compat h hc

theorem nodesFold_compat :
    ∀ {nodes : List Node} {st st1 : RState} {past : List Mention},
      foldE processNode st nodes = .ok st1 → compat past st.meta.ingredients →
      compat (past ++ (nodes.map mentionsOfNode).flatten) st1.meta.ingredients := by
  intro nodes
  induction nodes with
  | nil =>
    intro st st1 past h hc
    cases h
    simpa using hc
  | cons nd l ih =>
    intro st st1 past h hc
    cases hp : processNode st nd with
    | error e => rw [foldE_cons_err hp] at h; cases h
    | ok st2 =>
      rw [foldE_cons_ok hp] at h
      have h2 := processNode_compat hp hc
      have h3 := ih h h2
      simpa [List.append_assoc] using h3

/-- C3: amended.  (a) On any successfully parsed tree, two mentions of the
same normalized name never disagree on declared unit or on Amount variant
tag (when both declare amounts): the reduction never silently coerces, so a
tag- or unit-mismatched pair always makes the whole reduction fail.  (b) On
a two-mention step of the same name the error kind is: `AmountAlgebraError`
when both mentions declare amounts of differing variant tags, and
`UnitMismatchError` for differing declared units — `none` counting as its
own value — **except** when the first mention declared no amount and the
later one declares one: the merge then unwraps the stored `None` amount
before the unit check is reached, and the reduction fails with the
unwrap-on-`None` panic instead of either taxonomy kind. -/
theorem claim_C3 :
    (∀ (src : List Char) (t : List Node) (r : Recipe), parse src t = .ok r →
      ∀ m1 ∈ mentionsOfTree t, ∀ m2 ∈ mentionsOfTree t, m1.name = m2.name →
        m1.unit = m2.unit ∧
        ∀ a1 a2, m1.amount = some a1 → m2.amount = some a2 → tagOf a1 = tagOf a2) ∧
    (∀ (src m1 m2 : List Char) (p1 p2 : List IngredientProperty) (n : String)
      (a1 a2 : Amount) (u1 u2 : Option String),
      mentionOfProps p1 = some ⟨n, some a1, u1⟩ →
      mentionOfProps p2 = some ⟨n, some a2, u2⟩ →
      tagOf a1 ≠ tagOf a2 →
      parse src [.step [.ingredient m1 p1, .ingredient m2 p2]] = .error .amountAlgebra) ∧
    (∀ (src m1 m2 : List Char) (p1 p2 : List IngredientProperty) (n : String)
      (a1 a2 : Amount) (u1 u2 : Option String),
      mentionOfProps p1 = some ⟨n, some a1, u1⟩ →
      mentionOfProps p2 = some ⟨n, some a2, u2⟩ →
      tagOf a1 = tagOf a2 → u1 ≠ u2 →
      parse src [.step [.ingredient m1 p1, .ingredient m2 p2]] = .error .unitMismatch) ∧
    (∀ (src m1 m2 : List Char) (p1 p2 : List IngredientProperty) (n : String)
      (a1 : Amount) (u1 u2 : Option String),
      mentionOfProps p1 = some ⟨n, some a1, u1⟩ →
      mentionOfProps p2 = some ⟨n, none, u2⟩ →
      u1 ≠ u2 →
      parse src [.step [.ingredient m1 p1, .ingredient m2 p2]] = .error .unitMismatch) ∧
    (∀ (src m1 m2 : List Char) (p1 p2 : List IngredientProperty) (n : String)
      (u1 u2 : Option String),
      mentionOfProps p1 = some ⟨n, none, u1⟩ →
      mentionOfProps p2 = some ⟨n, none, u2⟩ →
      u1 ≠ u2 →
      parse src [.step [.ingredient m1 p1, .ingredient m2 p2]] = .error .unitMismatch) ∧
    (∀ (src m1 m2 : List Char) (p1 p2 : List IngredientProperty) (n : String)
      (a2 : Amount) (u1 u2 : Option String),
      mentionOfProps p1 = some ⟨n, none, u1⟩ →
      mentionOfProps p2 = some ⟨n, some a2, u2⟩ →
      parse src [.step [.ingredient m1 p1, .ingredient m2 p2]] = .error .nonePanic) := by
  refine ⟨?_, ?_, ?_, ?_, ?_, ?_⟩
  · intro src t r hp m1 hm1 m2 hm2 hname
    unfold parse at hp
    cases hf : foldE processNode (initState src) t with
    | error e => rw [hf] at hp; cases hp
    | ok st =>
      have hc0 : compat ([] : List Mention) (initState src).meta.ingredients := by
        intro me hme
        exact absurd hme (List.not_mem_nil me)
      have hcomp := nodesFold_compat hf hc0
      rw [List.nil_append] at hcomp
      obtain ⟨ing1, hl1, hu1, ht1⟩ := hcomp m1 hm1
      obtain ⟨ing2, hl2, hu2, ht2⟩ := hcomp m2 hm2
      rw [hname] at hl1
      have hing : ing1 = ing2 := Option.some.inj (hl1.symm.trans hl2)
      subst hing
      refine ⟨hu1.trans hu2.symm, ?_⟩
      intro a1 a2 ha1 ha2
      obtain ⟨b1, hb1, htg1⟩ := ht1 a1 ha1
      obtain ⟨b2, hb2, htg2⟩ := ht2 a2 ha2
      have hb : b1 = b2 := Option.some.inj (hb1.symm.trans hb2)
      rw [htg1, hb, ← htg2]
  · intro src m1 m2 p1 p2 n a1 a2 u1 u2 h1 h2 htag
    obtain ⟨acc1, hf1, hme1⟩ := mentionOfProps_some h1
    obtain ⟨acc2, hf2, hme2⟩ := mentionOfProps_some h2
    obtain ⟨nm1, am1, md1, un1⟩ := acc1
    obtain ⟨nm2, am2, md2, un2⟩ := acc2
    simp only [Mention.mk.injEq] at hme1 hme2
    obtain ⟨hn1, ha1, hu1⟩ := hme1
    obtain ⟨hn2, ha2, hu2⟩ := hme2
    subst ha1
    subst ha2
    subst hu1
    subst hu2
    subst hn1
    have hl2 : lookupIng [(finalizeName nm1,
          (⟨finalizeName nm1, 0, some a1, u1⟩ : Ingredient))]
        (finalizeName nm2) =
        some ⟨finalizeName nm1, 0, some a1, u1⟩ := by
      rw [← hn2]; exact lookupIng_single_self _ _
    have hmerge := @processIngredient_merge
      ⟨⟨none, [],
        [(finalizeName nm1, ⟨finalizeName nm1, 0, some a1, u1⟩)],
        [⟨finalizeName nm1, (some a1).getD (.Single 0)⟩], [], []⟩,
       listReplace m1 ['@'] src, 1⟩ m2 p2 ⟨nm2, some a2, md2, u2⟩
      ⟨finalizeName nm1, 0, some a1, u1⟩ hf2 hl2
    simp only [addAmount_tag_ne htag] at hmerge
    exact parse_two_err src m1 m2 hf1 hmerge
  · intro src m1 m2 p1 p2 n a1 a2 u1 u2 h1 h2 htag hne
    obtain ⟨acc1, hf1, hme1⟩ := mentionOfProps_some h1
    obtain ⟨acc2, hf2, hme2⟩ := mentionOfProps_some h2
    obtain ⟨nm1, am1, md1, un1⟩ := acc1
    obtain ⟨nm2, am2, md2, un2⟩ := acc2
    simp only [Mention.mk.injEq] at hme1 hme2
    obtain ⟨hn1, ha1, hu1⟩ := hme1
    obtain ⟨hn2, ha2, hu2⟩ := hme2
    subst ha1
    subst ha2
    subst hu1
    subst hu2
    subst hn1
    obtain ⟨c, hadd⟩ := addAmount_tag_eq htag
    have hl2 : lookupIng [(finalizeName nm1,
          (⟨finalizeName nm1, 0, some a1, u1⟩ : Ingredient))]
        (finalizeName nm2) =
        some ⟨finalizeName nm1, 0, some a1, u1⟩ := by
      rw [← hn2]; exact lookupIng_single_self _ _
    have hmerge := @processIngredient_merge
      ⟨⟨none, [],
        [(finalizeName nm1, ⟨finalizeName nm1, 0, some a1, u1⟩)],
        [⟨finalizeName nm1, (some a1).getD (.Single 0)⟩], [], []⟩,
       listReplace m1 ['@'] src, 1⟩ m2 p2 ⟨nm2, some a2, md2, u2⟩
      ⟨finalizeName nm1, 0, some a1, u1⟩ hf2 hl2
    simp only [hadd] at hmerge
    rw [if_pos hne] at hmerge
    exact parse_two_err src m1 m2 hf1 hmerge
  · intro src m1 m2 p1 p2 n a1 u1 u2 h1 h2 hne
    obtain ⟨acc1, hf1, hme1⟩ := mentionOfProps_some h1
    obtain ⟨acc2, hf2, hme2⟩ := mentionOfProps_some h2
    obtain ⟨nm1, am1, md1, un1⟩ := acc1
    obtain ⟨nm2, am2, md2, un2⟩ := acc2
    simp only [Mention.mk.injEq] at hme1 hme2
    obtain ⟨hn1, ha1, hu1⟩ := hme1
    obtain ⟨hn2, ha2, hu2⟩ := hme2
    subst ha1
    subst ha2
    subst hu1
    subst hu2
    subst hn1
    have hl2 : lookupIng [(finalizeName nm1,
          (⟨finalizeName nm1, 0, some a1, u1⟩ : Ingredient))]
        (finalizeName nm2) =
        some ⟨finalizeName nm1, 0, some a1, u1⟩ := by
      rw [← hn2]; exact lookupIng_single_self _ _
    have hmerge := @processIngredient_merge
      ⟨⟨none, [],
        [(finalizeName nm1, ⟨finalizeName nm1, 0, some a1, u1⟩)],
        [⟨finalizeName nm1, (some a1).getD (.Single 0)⟩], [], []⟩,
       listReplace m1 ['@'] src, 1⟩ m2 p2 ⟨nm2, none, md2, u2⟩
      ⟨finalizeName nm1, 0, some a1, u1⟩ hf2 hl2
    simp only [] at hmerge
    rw [if_pos hne] at hmerge
    exact parse_two_err src m1 m2 hf1 hmerge
  · intro src m1 m2 p1 p2 n u1 u2 h1 h2 hne
    obtain ⟨acc1, hf1, hme1⟩ := mentionOfProps_some h1
    obtain ⟨acc2, hf2, hme2⟩ := mentionOfProps_some h2
    obtain ⟨nm1, am1, md1, un1⟩ := acc1
    obtain ⟨nm2, am2, md2, un2⟩ := acc2
    simp only [Mention.mk.injEq] at hme1 hme2
    obtain ⟨hn1, ha1, hu1⟩ := hme1
    obtain ⟨hn2, ha2, hu2⟩ := hme2
    subst ha1
    subst ha2
    subst hu1
    subst hu2
    subst hn1
    have hl2 : lookupIng [(finalizeName nm1,
          (⟨finalizeName nm1, 0, none, u1⟩ : Ingredient))]
        (finalizeName nm2) =
        some ⟨finalizeName nm1, 0, none, u1⟩ := by
      rw [← hn2]; exact lookupIng_single_self _ _
    have hmerge := @processIngredient_merge
      ⟨⟨none, [],
        [(finalizeName nm1, ⟨finalizeName nm1, 0, none, u1⟩)],
        [⟨finalizeName nm1, Option.getD none (.Single 0)⟩], [], []⟩,
       listReplace m1 ['@'] src, 1⟩ m2 p2 ⟨nm2, none, md2, u2⟩
      ⟨finalizeName nm1, 0, none, u1⟩ hf2 hl2
    simp only [] at hmerge
    rw [if_pos hne] at hmerge
    exact parse_two_err src m1 m2 hf1 hmerge
  · intro src m1 m2 p1 p2 n a2 u1 u2 h1 h2
    obtain ⟨acc1, hf1, hme1⟩ := mentionOfProps_some h1
    obtain ⟨acc2, hf2, hme2⟩ := mentionOfProps_some h2
    obtain ⟨nm1, am1, md1, un1⟩ := acc1
    obtain ⟨nm2, am2, md2, un2⟩ := acc2
    simp only [Mention.mk.injEq] at hme1 hme2
    obtain ⟨hn1, ha1, hu1⟩ := hme1
    obtain ⟨hn2, ha2, hu2⟩ := hme2
    subst ha1
    subst ha2
    subst hu1
    subst hu2
    subst hn1
    have hl2 : lookupIng [(finalizeName nm1,
          (⟨finalizeName nm1, 0, none, u1⟩ : Ingredient))]
        (finalizeName nm2) =
        some ⟨finalizeName nm1, 0, none, u1⟩ := by
      rw [← hn2]; exact lookupIng_single_self _ _
    have hmerge := @processIngredient_merge
      ⟨⟨none, [],
        [(finalizeName nm1, ⟨finalizeName nm1, 0, none, u1⟩)],
        [⟨finalizeName nm1, Option.getD none (.Single 0)⟩], [], []⟩,
       listReplace m1 ['@'] src, 1⟩ m2 p2 ⟨nm2, some a2, md2, u2⟩
      ⟨finalizeName nm1, 0, none, u1⟩ hf2 hl2
    simp only [] at hmerge
    exact parse_two_err src m1 m2 hf1 hmerge

/-- C3: counterexample to the claim as stated.  `@salt` (no amount, unit
`none`) followed by `@salt{2%g}` (amount, unit `some "g"`) is a same-name
pair with differing declared units, so the claim demands a failure with the
`UnitMismatchError` (or `AmountAlgebraError`) kind; the code instead
unwraps the stored `None` amount before the unit check and the reduction
fails with the unwrap-on-`None` panic, which is neither kind. -/
theorem claim_C3_cex :
    parse "Add @salt and @salt{2%g}".toList
      [.step [.ingredient "@salt".toList [.name "salt"],
              .ingredient "@salt{2%g}".toList
                [.name "salt", .number [2], .unit "g"]]] =
      .error .nonePanic ∧
    ((none : Option String) ≠ some "g") ∧
    Err.nonePanic ≠ Err.unitMismatch ∧
    Err.nonePanic ≠ Err.amountAlgebra := by
  refine ⟨by with_unfolding_all decide, by decide, by decide, by decide⟩

/-- C3: witness.  Instantiating the unit-mismatch part (`@x{1%g}` merged
with `@x{1%kg}` fails with the unit-mismatch error) and the no-amount
carve-out (`@oil` then `@oil{3%l}` fails with the unwrap panic). -/
theorem claim_C3_witness :
    mentionOfProps [.name "x", .number [1], .unit "g"]
      = some ⟨"x", some (.Single 1), some "g"⟩ ∧
    mentionOfProps [.name "x", .number [1], .unit "kg"]
      = some ⟨"x", some (.Single 1), some "kg"⟩ ∧
    (some "g" : Option String) ≠ some "kg" ∧
    parse "@x{1%g} @x{1%kg}".toList
      [.step [.ingredient "@x{1%g}".toList [.name "x", .number [1], .unit "g"],
              .ingredient "@x{1%kg}".toList [.name "x", .number [1], .unit "kg"]]] =
      .error .unitMismatch ∧
    parse "Use @oil then @oil{3%l}".toList
      [.step [.ingredient "@oil".toList [.name "oil"],
              .ingredient "@oil{3%l}".toList
                [.name "oil", .number [3], .unit "l"]]] =
      .error .nonePanic :=
  ⟨by with_unfolding_all decide, by with_unfolding_all decide, by decide,
   claim_C3.2.2.1 _ _ _ _ _ "x" (.Single 1) (.Single 1) (some "g") (some "kg")
     (by with_unfolding_all decide) (by with_unfolding_all decide) rfl (by decide),
   claim_C3.2.2.2.2.2 _ _ _ _ _ "oil" (.Single 3) none (some "l")
     (by with_unfolding_all decide) (by with_unfolding_all decide)⟩

/-! ## Comment erasure (C8) -/

theorem occCount_cons_le (p : List Char) (a : Char) (s : List Char) :
    occCount p s ≤ occCount p (a :: s) := by
  simp only [occCount]
  omega

theorem occCount_drop_le (p : List Char) :
    ∀ (s : List Char) (k : Nat), occCount p (s.drop k) ≤ occCount p s := by
  intro s
  induction s with
  | nil => intro k; simp
  | cons a s ih =>
    intro k
    cases k with
    | zero => simp
    | succ k =>
      calc occCount p ((a :: s).drop (k + 1)) = occCount p (s.drop k) := by
            simp
        _ ≤ occCount p s := ih k
        _ ≤ occCount p (a :: s) := occCount_cons_le p a s

theorem replGo_no_occ {p r : List Char} :
    ∀ (s : List Char) (fuel : Nat), occCount p s = 0 → replGo p r fuel s = s := by
  intro s
  induction s with
  | nil => intro fuel _; cases fuel <;> rfl
  | cons a s ih =>
    intro fuel h
    cases fuel with
    | zero => rfl
    | succ fuel =>
      by_cases hb : begMatch p (a :: s) = true
      · simp [occCount, hb] at h
      · simp only [occCount, hb, Bool.false_eq_true, if_false, Nat.zero_add] at h
        simp only [replGo, hb, Bool.false_eq_true, if_false]
        rw [ih fuel h]

theorem replGo_single_occ {p : List Char} (_hp : p ≠ []) :
    ∀ (s : List Char) (fuel : Nat), s.length ≤ fuel → occCount p s ≤ 1 →
      replGo p [] fuel s = eraseFirst p s := by
  intro s
  induction s with
  | nil => intro fuel _ _; cases fuel <;> rfl
  | cons a s ih =>
    intro fuel hlen hocc
    cases fuel with
    | zero => simp at hlen
    | succ fuel =>
      by_cases hb : begMatch p (a :: s) = true
      · simp only [replGo, eraseFirst, hb, if_true, List.nil_append]
        have hocc0 : occCount p s = 0 := by
          simp only [occCount, hb, if_true] at hocc
          omega
        exact replGo_no_occ _ fuel
          (Nat.le_zero.mp ((occCount_drop_le p s (p.length - 1)).trans hocc0.le))
      · simp only [replGo, eraseFirst, hb, Bool.false_eq_true, if_false]
        have hocc2 : occCount p s ≤ 1 := by
          simp only [occCount, hb, Bool.false_eq_true, if_false, Nat.zero_add] at hocc
          exact hocc
        rw [ih fuel (by simpa using Nat.le_of_succ_le_succ hlen) hocc2]

/-- C8: amended.  Each comment span (top-level or inside a step) is removed
from the edited instruction text by erasing **every** textual occurrence of
the span's matched substring present at that moment (Rust `String::replace`
replaces all occurrences, not the first); when the substring occurs at most
once, this coincides with erasing the first occurrence.  Occurrences split
by earlier edits or created by juxtaposition are not protected, so a
comment's text can survive into the returned instruction — see the
counterexample. -/
theorem claim_C8 (st : RState) (c : List Char) (p s : List Char)
    (hp : p ≠ []) (hocc : occCount p s ≤ 1) :
    processNode st (.comment c) =
      .ok ⟨st.meta, listReplace c [] st.edited, st.nextId⟩ ∧
    processSpan st (.comment c) =
      .ok ⟨st.meta, listReplace c [] st.edited, st.nextId⟩ ∧
    listReplace p [] s = eraseFirst p s := by
  refine ⟨rfl, rfl, ?_⟩
  unfold listReplace
  have hne : p.isEmpty = false := by simpa [List.isEmpty_iff] using hp
  rw [hne]
  exact replGo_single_occ hp s s.length (Nat.le_refl _) hocc

/-- C8: witness.  A comment whose text occurs once is erased exactly as the
first-occurrence description predicts. -/
theorem claim_C8_witness :
    (("//x".toList : List Char) ≠ [] ∧ occCount "//x".toList "a//xb".toList ≤ 1) ∧
    processNode ⟨⟨none, [], [], [], [], []⟩, "a//xb".toList, 0⟩ (.comment "//x".toList) =
      .ok ⟨⟨none, [], [], [], [], []⟩, listReplace "//x".toList [] "a//xb".toList, 0⟩ ∧
    processSpan ⟨⟨none, [], [], [], [], []⟩, "a//xb".toList, 0⟩ (.comment "//x".toList) =
      .ok ⟨⟨none, [], [], [], [], []⟩, listReplace "//x".toList [] "a//xb".toList, 0⟩ ∧
    listReplace "//x".toList [] "a//xb".toList = eraseFirst "//x".toList "a//xb".toList :=
  ⟨⟨by decide, by decide⟩,
   claim_C8 ⟨⟨none, [], [], [], [], []⟩, "a//xb".toList, 0⟩ "//x".toList
     "//x".toList "a//xb".toList (by decide) (by decide)⟩

/-- C8: counterexample to the claim as stated.  Over the source
`"//x\nb////xx"` (a comment line `//x`, then a step `b` with in-step comment
`////xx`), replace-all removal of `//x` also fires inside the span of the
later comment `////xx` and its removal re-creates the string `//x` by
juxtaposition: the returned instruction is `"\nb//x"`, which still contains
the comment text `//x`, while first-occurrence erasure (the claimed
behaviour) would produce `"\nb"`. -/
theorem claim_C8_cex :
    parse "//x\nb////xx".toList
      [.comment "//x".toList, .step [.comment "////xx".toList]] =
      .ok ⟨"//x\nb////xx".toList, ⟨none, [], [], [], [], []⟩, "\nb//x".toList⟩ ∧
    eraseFirst "////xx".toList (eraseFirst "//x".toList "//x\nb////xx".toList) =
      "\nb".toList ∧
    occCount "//x".toList "\nb//x".toList ≠ 0 ∧
    "\nb//x".toList ≠ "\nb".toList := by
  refine ⟨by decide, by decide, by decide, by decide⟩

/-! ## Marker counting (for the alignment invariant C1) -/

/-- One per ingredient span. -/
def spanIngCount : Span → Nat
  | .ingredient _ _ => 1
  | _ => 0

/-- One per cookware span. -/
def spanCookCount : Span → Nat
  | .cookware _ _ => 1
  | _ => 0

/-- One per timer span. -/
def spanTimCount : Span → Nat
  | .timer _ _ => 1
  | _ => 0

/-- Ingredient spans of a node. -/
def nodeIngCount : Node → Nat
  | .step spans => (spans.map spanIngCount).sum
  | _ => 0

/-- Cookware spans of a node. -/
def nodeCookCount : Node → Nat
  | .step spans => (spans.map spanCookCount).sum
  | _ => 0

/-- Timer spans of a node. -/
def nodeTimCount : Node → Nat
  | .step spans => (spans.map spanTimCount).sum
  | _ => 0

/-- Ingredient spans of a tree. -/
def treeIngCount (t : List Node) : Nat := (t.map nodeIngCount).sum

/-- Cookware spans of a tree. -/
def treeCookCount (t : List Node) : Nat := (t.map nodeCookCount).sum

/-- Timer spans of a tree. -/
def treeTimCount (t : List Node) : Nat := (t.map nodeTimCount).sum

/-- Non-interference condition on one span: its matched text contains its
own marker exactly once and the other two markers not at all (comment spans
contain no marker). -/
def markersOkSpan : Span → Bool
  | .ingredient m _ => countC '@' m == 1 && countC '#' m == 0 && countC '~' m == 0
  | .cookware m _ => countC '@' m == 0 && countC '#' m == 1 && countC '~' m == 0
  | .timer m _ => countC '@' m == 0 && countC '#' m == 0 && countC '~' m == 1
  | .comment m => countC '@' m == 0 && countC '#' m == 0 && countC '~' m == 0

/-- Non-interference condition on one node. -/
def markersOkNode : Node → Bool
  | .metadata _ => true
  | .comment m => countC '@' m == 0 && countC '#' m == 0 && countC '~' m == 0
  | .step spans => spans.all markersOkSpan

/-- The tameness condition under which marker counting is exact: every span
and comment carries the right marker multiset, and the source contains
exactly one marker occurrence per span of the corresponding kind. -/
def tame (src : List Char) (t : List Node) : Bool :=
  t.all markersOkNode &&
  countC '@' src == treeIngCount t &&
  countC '#' src == treeCookCount t &&
  countC '~' src == treeTimCount t

/-! ## Field-preservation lemmas for the reducer steps -/

theorem processIngredient_ok_fields {st st1 : RState} {m : List Char}
    {props : List IngredientProperty}
    (h : processIngredient st m props = .ok st1) :
    st1.edited = listReplace m ['@'] st.edited ∧
    st1.meta.ingredients_specifiers.length = st.meta.ingredients_specifiers.length + 1 ∧
    st1.meta.cookware = st.meta.cookware ∧
    st1.meta.timer = st.meta.timer := by
  unfold processIngredient at h
  cases hf : foldE ingredientStep ⟨"", none, none, none⟩ props with
  | error e => rw [hf] at h; cases h
  | ok acc =>
    rw [hf] at h
    simp only at h
    split at h
    · split at h
      · cases h
      · split at h
        · cases h
        · cases h
          refine ⟨rfl, ?_, rfl, rfl⟩
          simp
    · cases h
      refine ⟨rfl, ?_, rfl, rfl⟩
      simp

theorem processSpan_fields {st st1 : RState} {sp : Span}
    (h : processSpan st sp = .ok st1) (hok : markersOkSpan sp = true) :
    countC '@' st1.edited = countC '@' st.edited ∧
    countC '#' st1.edited = countC '#' st.edited ∧
    countC '~' st1.edited = countC '~' st.edited ∧
    st1.meta.ingredients_specifiers.length
      = st.meta.ingredients_specifiers.length + spanIngCount sp ∧
    st1.meta.cookware.length = st.meta.cookware.length + spanCookCount sp ∧
    st1.meta.timer.length = st.meta.timer.length + spanTimCount sp := by
  cases sp with
  | ingredient m props =>
    simp only [markersOkSpan, Bool.and_eq_true, beq_iff_eq] at hok
    obtain ⟨⟨h1, h2⟩, h3⟩ := hok
    obtain ⟨he, hs, hc, htm⟩ := processIngredient_ok_fields h
    refine ⟨?_, ?_, ?_, ?_, ?_, ?_⟩
    · rw [he]; exact countC_listReplace '@' (by simp [countC, h1]) _
    · rw [he]; exact countC_listReplace '#' (by simp [countC, h2]) _
    · rw [he]; exact countC_listReplace '~' (by simp [countC, h3]) _
    · rw [hs]; rfl
    · rw [hc]; simp [spanCookCount]
    · rw [htm]; simp [spanTimCount]
  | cookware m tokens =>
    simp only [markersOkSpan, Bool.and_eq_true, beq_iff_eq] at hok
    obtain ⟨⟨h1, h2⟩, h3⟩ := hok
    simp only [processSpan] at h
    split at h
    · cases h
    · cases h
      refine ⟨?_, ?_, ?_, by simp [spanIngCount], ?_, by simp [spanTimCount]⟩
      · exact countC_listReplace '@' (by simp [countC, h1]) _
      · exact countC_listReplace '#' (by simp [countC, h2]) _
      · exact countC_listReplace '~' (by simp [countC, h3]) _
      · simp [spanCookCount]
  | timer m props =>
    simp only [markersOkSpan, Bool.and_eq_true, beq_iff_eq] at hok
    obtain ⟨⟨h1, h2⟩, h3⟩ := hok
    simp only [processSpan] at h
    cases h
    refine ⟨?_, ?_, ?_, by simp [spanIngCount], by simp [spanCookCount], ?_⟩
    · exact countC_listReplace '@' (by simp [countC, h1]) _
    · exact countC_listReplace '#' (by simp [countC, h2]) _
    · exact countC_listReplace '~' (by simp [countC, h3]) _
    · simp [spanTimCount]
  | comment m =>
    simp only [markersOkSpan, Bool.and_eq_true, beq_iff_eq] at hok
    obtain ⟨⟨h1, h2⟩, h3⟩ := hok
    simp only [processSpan] at h
    cases h
    refine ⟨?_, ?_, ?_, by simp [spanIngCount], by simp [spanCookCount],
      by simp [spanTimCount]⟩
    · exact countC_listReplace '@' (by simp [countC, h1]) _
    · exact countC_listReplace '#' (by simp [countC, h2]) _
    · exact countC_listReplace '~' (by simp [countC, h3]) _

theorem spansFold_fields :
    ∀ {spans : List Span} {st st1 : RState},
      foldE processSpan st spans = .ok st1 → spans.all markersOkSpan = true →
      countC '@' st1.edited = countC '@' st.edited ∧
      countC '#' st1.edited = countC '#' st.edited ∧
      countC '~' st1.edited = countC '~' st.edited ∧
      st1.meta.ingredients_specifiers.length
        = st.meta.ingredients_specifiers.length + (spans.map spanIngCount).sum ∧
      st1.meta.cookware.length
        = st.meta.cookware.length + (spans.map spanCookCount).sum ∧
      st1.meta.timer.length = st.meta.timer.length + (spans.map spanTimCount).sum := by
  intro spans
  induction spans with
  | nil =>
    intro st st1 h _
    cases h
    simp
  | cons sp l ih =>
    intro st st1 h hok
    simp only [List.all_cons, Bool.and_eq_true] at hok
    cases hp : processSpan st sp with
    | error e => rw [foldE_cons_err hp] at h; cases h
    | ok st2 =>
      rw [foldE_cons_ok hp] at h
      obtain ⟨e1, e2, e3, e4, e5, e6⟩ := processSpan_fields hp hok.1
      obtain ⟨f1, f2, f3, f4, f5, f6⟩ := ih h hok.2
      refine ⟨f1.trans e1, f2.trans e2, f3.trans e3, ?_, ?_, ?_⟩
      · rw [f4, e4]; simp; omega
      · rw [f5, e5]; simp; omega
      · rw [f6, e6]; simp; omega

theorem processNode_fields {st st1 : RState} {nd : Node}
    (h : processNode st nd = .ok st1) (hok : markersOkNode nd = true) :
    countC '@' st1.edited = countC '@' st.edited ∧
    countC '#' st1.edited = countC '#' st.edited ∧
    countC '~' st1.edited = countC '~' st.edited ∧
    st1.meta.ingredients_specifiers.length
      = st.meta.ingredients_specifiers.length + nodeIngCount nd ∧
    st1.meta.cookware.length = st.meta.cookware.length + nodeCookCount nd ∧
    st1.meta.timer.length = st.meta.timer.length + nodeTimCount nd := by
  cases nd with
  | metadata props =>
    simp only [processNode] at h
    obtain ⟨e1, e2, e3, e4, e5⟩ := metaProps_fields h
    refine ⟨by rw [e1], by rw [e1], by rw [e1], ?_, ?_, ?_⟩
    · rw [e3]; simp [nodeIngCount]
    · rw [e4]; simp [nodeCookCount]
    · rw [e5]; simp [nodeTimCount]
  | comment m =>
    simp only [markersOkNode, Bool.and_eq_true, beq_iff_eq] at hok
    obtain ⟨⟨h1, h2⟩, h3⟩ := hok
    simp only [processNode] at h
    cases h
    refine ⟨?_, ?_, ?_, by simp [nodeIngCount], by simp [nodeCookCount],
      by simp [nodeTimCount]⟩
    · exact countC_listReplace '@' (by simp [countC, h1]) _
    · exact countC_listReplace '#' (by simp [countC, h2]) _
    · exact countC_listReplace '~' (by simp [countC, h3]) _
  | step spans =>
    simp only [processNode] at h
    simp only [markersOkNode] at hok
    exact spansFold_fields h hok

theorem nodesFold_fields :
    ∀ {nodes : List Node} {st st1 : RState},
      foldE processNode st nodes = .ok st1 → nodes.all markersOkNode = true →
      countC '@' st1.edited = countC '@' st.edited ∧
      countC '#' st1.edited = countC '#' st.edited ∧
      countC '~' st1.edited = countC '~' st.edited ∧
      st1.meta.ingredients_specifiers.length
        = st.meta.ingredients_specifiers.length + treeIngCount nodes ∧
      st1.meta.cookware.length = st.meta.cookware.length + treeCookCount nodes ∧
      st1.meta.timer.length = st.meta.timer.length + treeTimCount nodes := by
  intro nodes
  induction nodes with
  | nil =>
    intro st st1 h _
    cases h
    simp [treeIngCount, treeCookCount, treeTimCount]
  | cons nd l ih =>
    intro st st1 h hok
    simp only [List.all_cons, Bool.and_eq_true] at hok
    cases hp : processNode st nd with
    | error e => rw [foldE_cons_err hp] at h; cases h
    | ok st2 =>
      rw [foldE_cons_ok hp] at h
      obtain ⟨e1, e2, e3, e4, e5, e6⟩ := processNode_fields hp hok.1
      obtain ⟨f1, f2, f3, f4, f5, f6⟩ := ih h hok.2
      refine ⟨f1.trans e1, f2.trans e2, f3.trans e3, ?_, ?_, ?_⟩
      · rw [f4, e4]; simp [treeIngCount]; omega
      · rw [f5, e5]; simp [treeCookCount]; omega
      · rw [f6, e6]; simp [treeTimCount]; omega

/-- C1: amended.  On any tame input (each span's matched text holds exactly
one occurrence of its own marker and none of the other two, comments hold no
marker, and the source's marker counts equal the span counts), a successful
parse yields an instruction whose `@`, `#`, `~` counts equal the lengths of
`ingredients_specifiers`, `cookware` and `timer` respectively.  (Without the
tameness condition the marker counts can drift: replacement is textual and
replaces every occurrence — see the counterexample.) -/
theorem claim_C1 (src : List Char) (t : List Node) (r : Recipe)
    (ht : tame src t = true) (hp : parse src t = .ok r) :
    countC '@' r.instruction = r.metadata.ingredients_specifiers.length ∧
    countC '#' r.instruction = r.metadata.cookware.length ∧
    countC '~' r.instruction = r.metadata.timer.length := by
  simp only [tame, Bool.and_eq_true, beq_iff_eq] at ht
  obtain ⟨⟨⟨hall, hat⟩, hsh⟩, htl⟩ := ht
  unfold parse at hp
  cases hf : foldE processNode (initState src) t with
  | error e => rw [hf] at hp; cases hp
  | ok st =>
    rw [hf] at hp
    cases hp
    obtain ⟨e1, e2, e3, e4, e5, e6⟩ := nodesFold_fields hf hall
    simp only [initState] at e1 e2 e3 e4 e5 e6
    refine ⟨?_, ?_, ?_⟩
    · rw [e1, e4, hat]; simp
    · rw [e2, e5, hsh]; simp
    · rw [e3, e6, htl]; simp

/-- C1: witness.  A tame recipe with one ingredient, one cookware item, one
timer and a comment line parses successfully with aligned counts. -/
theorem claim_C1_witness :
    tame "Mix @salt{1} in #pot then wait ~{10%minutes}\n// done".toList
      [.step [.ingredient "@salt{1}".toList [.name "salt", .number [1]],
              .cookware "#pot".toList ["pot"],
              .timer "~{10%minutes}".toList [.number 10, .other "minutes"]],
       .comment "// done".toList] = true ∧
    parse "Mix @salt{1} in #pot then wait ~{10%minutes}\n// done".toList
      [.step [.ingredient "@salt{1}".toList [.name "salt", .number [1]],
              .cookware "#pot".toList ["pot"],
              .timer "~{10%minutes}".toList [.number 10, .other "minutes"]],
       .comment "// done".toList] =
      .ok ⟨"Mix @salt{1} in #pot then wait ~{10%minutes}\n// done".toList,
        ⟨none, [], [("salt", ⟨"salt", 0, some (.Single 1), none⟩)],
          [⟨"salt", .Single 1⟩], ["pot"], [⟨10, "minutes"⟩]⟩,
        "Mix @ in # then wait ~\n".toList⟩ ∧
    (countC '@' "Mix @ in # then wait ~\n".toList = 1 ∧
     countC '#' "Mix @ in # then wait ~\n".toList = 1 ∧
     countC '~' "Mix @ in # then wait ~\n".toList = 1) := by
  refine ⟨by decide, by with_unfolding_all decide, ?_⟩
  have := claim_C1 "Mix @salt{1} in #pot then wait ~{10%minutes}\n// done".toList
    [.step [.ingredient "@salt{1}".toList [.name "salt", .number [1]],
            .cookware "#pot".toList ["pot"],
            .timer "~{10%minutes}".toList [.number 10, .other "minutes"]],
     .comment "// done".toList]
    ⟨"Mix @salt{1} in #pot then wait ~{10%minutes}\n// done".toList,
      ⟨none, [], [("salt", ⟨"salt", 0, some (.Single 1), none⟩)],
        [⟨"salt", .Single 1⟩], ["pot"], [⟨10, "minutes"⟩]⟩,
      "Mix @ in # then wait ~\n".toList⟩
    (by decide) (by with_unfolding_all decide)
  simpa using this

/-- C1: counterexample to the claim as stated.  The mention `@a` also occurs
inside the later comment `// try @a too`; the textual replacement rewrites
both occurrences, the comment (now altered) is never removed, and the parsed
instruction contains two `@` markers against a single specifier. -/
theorem claim_C1_cex :
    parse "Add @a\n// try @a too".toList
      [.step [.ingredient "@a".toList [.name "a"]], .comment "// try @a too".toList] =
      .ok ⟨"Add @a\n// try @a too".toList,
        ⟨none, [], [("a", ⟨"a", 0, none, none⟩)], [⟨"a", .Single 0⟩], [], []⟩,
        "Add @\n// try @ too".toList⟩ ∧
    countC '@' "Add @\n// try @ too".toList = 2 ∧
    ([⟨"a", .Single 0⟩] : List IngredientSpecifier).length = 1 := by
  refine ⟨by with_unfolding_all decide, by decide, rfl⟩

/-- C5: confirmed.  Folding a numeric token `n` into the amount under
construction: no amount yet gives `Single n`; `Single x` gives
`Single (x / n)`; for `Servings` a trailing placeholder `0` is overwritten
with `n` and otherwise the last value `v` is replaced by `v / n`; on a
`Multi` amount the fold fails. -/
theorem claim_C5 (n x : ℚ) (xs : List ℚ) (y : ℚ) :
    applyNextNumber none n = .ok (.Single n) ∧
    applyNextNumber (some (.Single x)) n = .ok (.Single (x / n)) ∧
    applyNextNumber (some (.Servings (xs ++ [x]))) n =
      .ok (.Servings (xs ++ [if x = 0 then n else x / n])) ∧
    applyNextNumber (some (.Multi y)) n = .error .amountAlgebra := by
  refine ⟨rfl, rfl, ?_, rfl⟩
  simp only [applyNextNumber, List.getLast?_concat, List.dropLast_concat]
  split <;> simp

/-- C6: confirmed.  The serving-bracket separator turns `Single x` into
`Servings [x, 0]`, appends a placeholder slot to `Servings xs`, and fails on
`Multi` or when no amount has been parsed yet. -/
theorem claim_C6 (x : ℚ) (xs : List ℚ) :
    applySeparator (some (.Single x)) = .ok (.Servings [x, 0]) ∧
    applySeparator (some (.Servings xs)) = .ok (.Servings (xs ++ [0])) ∧
    applySeparator (some (.Multi x)) = .error .amountAlgebra ∧
    applySeparator none = .error .amountAlgebra :=
  ⟨rfl, rfl, rfl, rfl⟩

/-- C7: confirmed.  The scaling marker promotes `Single x` to `Multi x` and
fails on every other variant, and when no amount has been parsed yet. -/
theorem claim_C7 (x : ℚ) (xs : List ℚ) :
    applyScaling (some (.Single x)) = .ok (.Multi x) ∧
    applyScaling (some (.Multi x)) = .error .amountAlgebra ∧
    applyScaling (some (.Servings xs)) = .error .amountAlgebra ∧
    applyScaling none = .error .amountAlgebra :=
  ⟨rfl, rfl, rfl, rfl⟩
